import Mathlib

/-!
# Verification of the terminal_spectrograph core

Shallow embedding of the streaming DSP framer (`src/processing.rs`) and the
terminal renderer (`src/drawing.rs`, historical variant in `src/main.rs`) of
the `terminal_spectrograph` repository, together with theorems settling the
frozen claims about the natural-language specification.

Modelling conventions:
* Rust `u32`/`usize` values are modelled as `Nat`; an unsigned subtraction
  that would underflow (a panic in debug builds) is modelled by returning
  `none` from an `Option`-valued embedding.
* Integer division by zero panics in Rust, so a division whose divisor can
  be zero is likewise guarded by `Option`.
* Complex samples `Complex<i8>` are modelled as pairs of integers; the
  floating-point magnitude/log pipeline of the renderer is abstracted as a
  parameter `f : sample → ℚ`, since none of the claims below depend on the
  transcendental values, only on lengths, indices and data movement.
* The external FFT primitive is a black box whose output has the length of
  the frame buffer handed to it; the embedding records the time-domain
  frame itself as the emitted spectrum (the lengths agree in every run
  considered here).
-/

/-- A raw complex sample `Complex<i8>` from the radio, modelled as a pair
of integers (real part, imaginary part). -/
def RawSample := Int × Int

instance : DecidableEq RawSample := instDecidableEqProd

/-- State of `SignalProcessor` from `src/processing.rs` (the `fft` plan
handle is a black box and is omitted; it carries no observable state beyond
the planned length, which `fft_len` already records). -/
structure SignalProcessor where
  signal : List RawSample
  fft_rate_hz : Nat
  sample_rate_hz : Nat
  fft_len : Nat
  num_samples_discarded : Nat
deriving DecidableEq

/-- `SignalProcessor::new(sample_rate_hz, fft_rate_hz, fft_len)`:
an empty accumulation buffer and a zero discard counter. -/
def SignalProcessor.new (sample_rate_hz fft_rate_hz : Nat) (fft_len : Nat) :
    SignalProcessor :=
  { signal := []
    fft_rate_hz := fft_rate_hz
    sample_rate_hz := sample_rate_hz
    fft_len := fft_len
    num_samples_discarded := 0 }

/-- `SignalProcessor::new_fft_len(fft_len)` from `src/processing.rs`
lines 32–38: it re-plans the FFT, calls `self.signal.reserve(fft_len)`
(which only grows the capacity and does not change the contents) and sets
`self.fft_len`.  It does NOT clear `signal` and does NOT reset
`num_samples_discarded`. -/
def SignalProcessor.new_fft_len (s : SignalProcessor) (fft_len : Nat) :
    SignalProcessor :=
  { s with fft_len := fft_len }

/-- The expression
`(self.sample_rate_hz - self.fft_rate_hz * self.fft_len as u32) / self.fft_rate_hz`
computed at the top of `SignalProcessor::add_signal_buffer`
(`src/processing.rs` lines 41–42).  Both the `u32` subtraction (underflow
when `fft_rate_hz * fft_len > sample_rate_hz`) and the division (divisor
`fft_rate_hz = 0`) panic in Rust; both are modelled as `none`. -/
def SignalProcessor.num_samples_to_discard (s : SignalProcessor) : Option Nat :=
  if s.fft_rate_hz = 0 then none
  else if s.sample_rate_hz < s.fft_rate_hz * s.fft_len then none
  else some ((s.sample_rate_hz - s.fft_rate_hz * s.fft_len) / s.fft_rate_hz)

/-- One iteration of the `for x in buff` loop of `add_signal_buffer`
(`src/processing.rs` lines 44–59).  The loop state is the accumulation
buffer, the discard counter and the spectra emitted so far; the
per-call constants are `num_samples_to_discard` (`d`) and `fft_len`
(`L`).  An emitted spectrum is recorded as the frame buffer handed to
the FFT. -/
def addSignalStep (d L : Nat) (st : List RawSample × Nat × List (List RawSample))
    (x : RawSample) : List RawSample × Nat × List (List RawSample) :=
  let (signal, counter, spectra) := st
  if d ≤ counter then
    let signal := signal ++ [x]
    if L ≤ signal.length then
      ([], 0, spectra ++ [signal])
    else
      (signal, counter, spectra)
  else
    (signal, counter + 1, spectra)

/-- `SignalProcessor::add_signal_buffer(buff)` (`src/processing.rs` lines
40–61): computes the per-call discard count (panicking — `none` — on
underflow or a zero frame rate), then folds the loop body over the buffer.
Returns the updated processor and the emitted spectra. -/
def SignalProcessor.add_signal_buffer (s : SignalProcessor)
    (buff : List RawSample) :
    Option (SignalProcessor × List (List RawSample)) :=
  match s.num_samples_to_discard with
  | none => none
  | some d =>
    let r := buff.foldl (addSignalStep d s.fft_len)
      (s.signal, s.num_samples_discarded, [])
    some ({ s with signal := r.1, num_samples_discarded := r.2.1 }, r.2.2)

/-- C1: the claim states that the Framer clamps the negative decimation
formula to zero and therefore never panics when
`frame_rate_hz × frame_len > sample_rate_hz`.  The source performs an
unchecked `u32` subtraction with no clamp: at
`sample_rate_hz = 100, fft_rate_hz = 10, fft_len = 11` (product `110 > 100`)
the subtraction underflows (modelled as `none`, a panic in debug builds and
a wrap to a huge discard count in release builds), and `add_signal_buffer`
fails on every input buffer, even an empty one. -/
theorem framer_discard_underflow :
    (SignalProcessor.new 100 10 11).num_samples_to_discard = none ∧
    (SignalProcessor.new 100 10 11).add_signal_buffer [] = none ∧
    (SignalProcessor.new 100 10 11).add_signal_buffer [(0, 0)] = none := by
  decide

/-- C3: the claim states that `new_fft_len` discards the partially filled
accumulation buffer and resets the discard counter, so no mixed-length
frame is ever emitted.  In the source `new_fft_len` only re-plans the FFT,
reserves capacity and overwrites `fft_len`.  Concrete run with
`sample_rate = 3, fft_rate = 1`, initial `fft_len = 2` (discard-per-frame
`= 1`): sample `(10,0)` is discarded, sample `(20,0)` starts a frame at
length 2; after `new_fft_len 3` the buffer still holds `(20,0)` and the
counter is still `1`; two further samples complete a frame of length `3`
that mixes the sample accumulated under the old length — a mixed-length
frame is emitted, contradicting the claim. -/
theorem reconfig_mixed_frame :
    ((SignalProcessor.new 3 1 2).add_signal_buffer [(10, 0)]).bind
        (fun r => (r.1.add_signal_buffer [(20, 0)]).bind
          (fun r2 =>
            let s3 := r2.1.new_fft_len 3
            (s3.add_signal_buffer [(30, 0), (40, 0)]).map
              (fun r3 => (s3.signal, s3.num_samples_discarded, r3.2)))) =
      some ([(20, 0)], 1, [[(20, 0), (30, 0), (40, 0)]]) ∧
    [((20 : Int), (0 : Int)), (30, 0), (40, 0)].length = 3 ∧ (3 : Nat) ≠ 2 := by
  decide

/-- Loop body, discard branch: counter below `d`. -/
theorem addSignalStep_skip (d L : Nat) (sig : List RawSample) (c : Nat)
    (out : List (List RawSample)) (x : RawSample) (hc : ¬ d ≤ c) :
    addSignalStep d L (sig, c, out) x = (sig, c + 1, out) := by
  simp [addSignalStep, hc]

/-- Loop body, accumulate branch: counter at least `d`, buffer still short
of `L` after the push. -/
theorem addSignalStep_push (d L : Nat) (sig : List RawSample) (c : Nat)
    (out : List (List RawSample)) (x : RawSample) (hc : d ≤ c)
    (hno : ¬ L ≤ (sig ++ [x]).length) :
    addSignalStep d L (sig, c, out) x = (sig ++ [x], c, out) := by
  simp at hno
  simp [addSignalStep, hc]
  omega

/-- Loop body, emit branch: counter at least `d`, buffer reaches `L`. -/
theorem addSignalStep_emit (d L : Nat) (sig : List RawSample) (c : Nat)
    (out : List (List RawSample)) (x : RawSample) (hc : d ≤ c)
    (hyes : L ≤ (sig ++ [x]).length) :
    addSignalStep d L (sig, c, out) x = ([], 0, out ++ [sig ++ [x]]) := by
  simp at hyes
  simp [addSignalStep, hc]
  omega

/-- During the discard phase (counter still below `d`) the loop body only
increments the counter: folding `xs` with `c + xs.length ≤ d` leaves the
buffer and the emitted spectra unchanged. -/
theorem addSignalStep_discard (d L : Nat) (xs : List RawSample) :
    ∀ (sig : List RawSample) (c : Nat) (out : List (List RawSample)),
      c + xs.length ≤ d →
      xs.foldl (addSignalStep d L) (sig, c, out) = (sig, c + xs.length, out) := by
  induction xs with
  | nil => intro sig c out _; simp
  | cons x xs ih =>
    intro sig c out h
    have hc : ¬ d ≤ c := by simp at h; omega
    have h1 : (c + 1) + xs.length ≤ d := by simp at h; omega
    rw [List.foldl_cons, addSignalStep_skip d L sig c out x hc,
      ih sig (c + 1) out h1]
    simp; omega

/-- During the fill phase (counter at least `d`) each sample is appended;
if the buffer plus the remaining samples exactly reach `L`, the frame is
emitted, the buffer cleared and the counter reset. -/
theorem addSignalStep_fill (d L : Nat) (xs : List RawSample) :
    ∀ (sig : List RawSample) (c : Nat) (out : List (List RawSample)),
      d ≤ c → 0 < xs.length → sig.length + xs.length = L →
      xs.foldl (addSignalStep d L) (sig, c, out) = ([], 0, out ++ [sig ++ xs]) := by
  induction xs with
  | nil => intro sig c out _ h0 _; simp at h0
  | cons x xs ih =>
    intro sig c out hc _ hlen
    cases xs with
    | nil =>
      have hL : L ≤ (sig ++ [x]).length := by simp at hlen ⊢; omega
      rw [List.foldl_cons, addSignalStep_emit d L sig c out x hc hL,
        List.foldl_nil]
    | cons y ys =>
      have hnoemit : ¬ L ≤ (sig ++ [x]).length := by
        simp at hlen ⊢; omega
      rw [List.foldl_cons, addSignalStep_push d L sig c out x hc hnoemit,
        ih (sig ++ [x]) c out hc (by simp) (by simp at hlen ⊢; omega)]
      simp

/-- From a fresh loop state (empty buffer, zero counter), a run of exactly
`d + L` samples (with `0 < L`) discards the first `d`, accumulates the
remaining `L`, and emits them as the single new frame, returning to the
fresh state. -/
theorem addSignalStep_one_frame (d L : Nat) (buff : List RawSample)
    (out : List (List RawSample)) (hL : 0 < L) (hlen : buff.length = d + L) :
    buff.foldl (addSignalStep d L) ([], 0, out) =
      ([], 0, out ++ [buff.drop d]) := by
  have hsplit : buff = buff.take d ++ buff.drop d := (List.take_append_drop d buff).symm
  have htake : (buff.take d).length = d := by
    rw [List.length_take]; omega
  have hdrop : (buff.drop d).length = L := by
    rw [List.length_drop]; omega
  calc buff.foldl (addSignalStep d L) ([], 0, out)
      = (buff.take d ++ buff.drop d).foldl (addSignalStep d L) ([], 0, out) := by
        rw [← hsplit]
    _ = (buff.drop d).foldl (addSignalStep d L)
          ((buff.take d).foldl (addSignalStep d L) ([], 0, out)) := by
        rw [List.foldl_append]
    _ = (buff.drop d).foldl (addSignalStep d L) ([], d, out) := by
        rw [addSignalStep_discard d L (buff.take d) [] 0 out (by omega), htake,
          Nat.zero_add]
    _ = ([], 0, out ++ [[] ++ buff.drop d]) := by
        exact addSignalStep_fill d L (buff.drop d) [] d out le_rfl (by omega)
          (by simp [hdrop])
    _ = ([], 0, out ++ [buff.drop d]) := by simp

/-- From a fresh loop state, a run of exactly `k · (d + L)` samples emits
exactly `k` frames, each of length `L`, and returns to the fresh state. -/
theorem addSignalStep_k_frames (d L : Nat) (hL : 0 < L) :
    ∀ (k : Nat) (buff : List RawSample) (out : List (List RawSample)),
      buff.length = k * (d + L) →
      ∃ frames : List (List RawSample),
        buff.foldl (addSignalStep d L) ([], 0, out) = ([], 0, out ++ frames) ∧
        frames.length = k ∧ ∀ fr ∈ frames, fr.length = L := by
  intro k
  induction k with
  | zero =>
    intro buff out hlen
    have : buff = [] := by
      cases buff with
      | nil => rfl
      | cons a l => simp at hlen
    subst this
    exact ⟨[], by simp, by simp, by simp⟩
  | succ k ih =>
    intro buff out hlen
    rw [Nat.succ_mul] at hlen
    have hlen1 : (buff.take (d + L)).length = d + L := by
      rw [List.length_take]; omega
    have hlen2 : (buff.drop (d + L)).length = k * (d + L) := by
      rw [List.length_drop]; omega
    obtain ⟨frames, hfold, hcount, hall⟩ :=
      ih (buff.drop (d + L)) (out ++ [(buff.take (d + L)).drop d]) hlen2
    refine ⟨(buff.take (d + L)).drop d :: frames, ?_, by simp [hcount], ?_⟩
    · calc buff.foldl (addSignalStep d L) ([], 0, out)
          = (buff.take (d + L) ++ buff.drop (d + L)).foldl
              (addSignalStep d L) ([], 0, out) := by
            rw [List.take_append_drop]
        _ = (buff.drop (d + L)).foldl (addSignalStep d L)
              ((buff.take (d + L)).foldl (addSignalStep d L) ([], 0, out)) := by
            rw [List.foldl_append]
        _ = (buff.drop (d + L)).foldl (addSignalStep d L)
              ([], 0, out ++ [(buff.take (d + L)).drop d]) := by
            rw [addSignalStep_one_frame d L (buff.take (d + L)) out hL hlen1]
        _ = ([], 0, out ++ ((buff.take (d + L)).drop d :: frames)) := by
            rw [hfold]; simp
    · intro fr hfr
      rcases List.mem_cons.mp hfr with h | h
      · subst h
        rw [List.length_drop, hlen1]; omega
      · exact hall fr h

/-- A fresh run shorter than `d + L` emits nothing: the counter never
completes the discard phase, or the buffer never reaches `L`. -/
theorem addSignalStep_short (d L : Nat) (buff : List RawSample)
    (out : List (List RawSample)) (hlen : buff.length < d + L) :
    (buff.foldl (addSignalStep d L) ([], 0, out)).2.2 = out := by
  by_cases hd : buff.length ≤ d
  · rw [addSignalStep_discard d L buff [] 0 out (by omega)]
  · have hsplit : buff = buff.take d ++ buff.drop d :=
      (List.take_append_drop d buff).symm
    have htake : (buff.take d).length = d := by
      rw [List.length_take]; omega
    have hdroplen : (buff.drop d).length < L := by
      rw [List.length_drop]; omega
    have hgrow : ∀ (xs : List RawSample) (sig : List RawSample) (c : Nat),
        d ≤ c → sig.length + xs.length < L →
        xs.foldl (addSignalStep d L) (sig, c, out) = (sig ++ xs, c, out) := by
      intro xs
      induction xs with
      | nil => intro sig c _ _; simp
      | cons x xs ih =>
        intro sig c hc hlt
        have hnoemit : ¬ L ≤ (sig ++ [x]).length := by simp at hlt ⊢; omega
        rw [List.foldl_cons, addSignalStep_push d L sig c out x hc hnoemit,
          ih (sig ++ [x]) c hc (by simp at hlt ⊢; omega)]
        simp
    conv_lhs => rw [hsplit]
    rw [List.foldl_append,
      addSignalStep_discard d L (buff.take d) [] 0 out (by omega), htake,
      Nat.zero_add,
      hgrow (buff.drop d) [] d le_rfl (by simpa using hdroplen)]

/-- C2: for every sample rate `R`, frame length `L > 0` and frame rate
`F > 0` with `F·L ≤ R`, and `d = (R − F·L)/F`, feeding `k·(d + L)` samples
into a fresh Framer emits exactly `k` spectra, each of length `L`, and no
spectrum is emitted before `d + L` samples have been consumed; in the
worked example `R = 2000000, L = 1024, F = 10` the discard count is
`198976` and the first spectrum appears exactly at `198976 + 1024 = 200000`
consumed samples. -/
theorem framer_emission_count (R L F : Nat) (hL : 0 < L) (hF : 0 < F)
    (hFL : F * L ≤ R) :
    (∀ (k : Nat) (buff : List RawSample),
      buff.length = k * ((R - F * L) / F + L) →
      ∃ s2 spectra, (SignalProcessor.new R F L).add_signal_buffer buff =
          some (s2, spectra) ∧
        spectra.length = k ∧ ∀ sp ∈ spectra, sp.length = L) ∧
    (∀ buff : List RawSample, buff.length < (R - F * L) / F + L →
      ∃ s2, (SignalProcessor.new R F L).add_signal_buffer buff =
          some (s2, [])) ∧
    (SignalProcessor.new 2000000 10 1024).num_samples_to_discard =
      some 198976 ∧
    198976 + 1024 = 200000 := by
  have hd : (SignalProcessor.new R F L).num_samples_to_discard =
      some ((R - F * L) / F) := by
    unfold SignalProcessor.num_samples_to_discard SignalProcessor.new
    simp only
    rw [if_neg (by omega), if_neg (by omega)]
  have hbuf : ∀ buff : List RawSample,
      (SignalProcessor.new R F L).add_signal_buffer buff =
        some ({ SignalProcessor.new R F L with
            signal := (buff.foldl (addSignalStep ((R - F * L) / F) L)
              ([], 0, [])).1,
            num_samples_discarded :=
              (buff.foldl (addSignalStep ((R - F * L) / F) L)
                ([], 0, [])).2.1 },
          (buff.foldl (addSignalStep ((R - F * L) / F) L) ([], 0, [])).2.2) := by
    intro buff
    unfold SignalProcessor.add_signal_buffer
    rw [hd]
    rfl
  refine ⟨?_, ?_, by decide, by decide⟩
  · intro k buff hlen
    obtain ⟨frames, hfold, hcount, hall⟩ :=
      addSignalStep_k_frames ((R - F * L) / F) L hL k buff [] (by omega)
    refine ⟨{ SignalProcessor.new R F L with
        signal := [], num_samples_discarded := 0 }, frames, ?_, hcount, hall⟩
    rw [hbuf buff, hfold]
    simp
  · intro buff hlen
    have hshort := addSignalStep_short ((R - F * L) / F) L buff [] hlen
    refine ⟨{ SignalProcessor.new R F L with
        signal := (buff.foldl (addSignalStep ((R - F * L) / F) L)
          ([], 0, [])).1,
        num_samples_discarded := (buff.foldl (addSignalStep ((R - F * L) / F) L)
          ([], 0, [])).2.1 }, ?_⟩
    rw [hbuf buff, hshort]

/-- Witness for C2: the worked example at `k = 1` with a concrete buffer of
`200000` zero samples yields exactly one spectrum of length `1024`. -/
theorem framer_emission_count_witness :
    ∃ s2 spectra,
      (SignalProcessor.new 2000000 10 1024).add_signal_buffer
          (List.replicate 200000 ((0 : Int), (0 : Int))) = some (s2, spectra) ∧
      spectra.length = 1 ∧ ∀ sp ∈ spectra, sp.length = 1024 :=
  (framer_emission_count 2000000 1024 10 (by decide) (by decide)
      (by decide)).1 1 (List.replicate 200000 ((0 : Int), (0 : Int)))
    (by rw [List.length_replicate])

/-- A floating-point sample `Complex<f32>` handed to the renderer, modelled
as a pair of rationals (real part, imaginary part). -/
def FSample := ℚ × ℚ

instance : DecidableEq FSample := instDecidableEqProd

/-- `fft_shift` from `src/drawing.rs` lines 145–153: the copy is split at
`(len + 1) / 2` and the in-place overwrite of `spec` from the chained
iterator (whose length equals `spec`'s) replaces the sequence by
`last_half ++ first_half`. -/
def fft_shift {α : Type} (spec : List α) : List α :=
  let k := (spec.length + 1) / 2
  spec.drop k ++ spec.take k

/-- C6 counterexample: on the odd-length sequence `[0, 1, 2]` applying
`fft_shift` twice yields `[1, 2, 0]`, not the original sequence, so
FFT-shift is not an involution for every length. -/
theorem fft_shift_not_involution_odd :
    fft_shift (fft_shift [(0 : Nat), 1, 2]) = [1, 2, 0] ∧
    fft_shift (fft_shift [(0 : Nat), 1, 2]) ≠ [0, 1, 2] := by
  decide

/-- C6 (amended): applying `fft_shift` twice returns the original sequence
for every even-length sequence (for odd length `N ≥ 3` the double
application is instead a nontrivial rotation, see the counterexample). -/
theorem fft_shift_involution_even {α : Type} (l : List α)
    (h : l.length % 2 = 0) : fft_shift (fft_shift l) = l := by
  have hk : (l.length + 1) / 2 = l.length / 2 := by omega
  have hdlen : (l.drop ((l.length + 1) / 2)).length = l.length / 2 := by
    rw [List.length_drop]; omega
  have hlen2 : (l.drop ((l.length + 1) / 2) ++
      l.take ((l.length + 1) / 2)).length = l.length := by
    rw [List.length_append, List.length_drop, List.length_take]; omega
  show (l.drop ((l.length + 1) / 2) ++ l.take ((l.length + 1) / 2)).drop
        (((l.drop ((l.length + 1) / 2) ++
          l.take ((l.length + 1) / 2)).length + 1) / 2) ++
      (l.drop ((l.length + 1) / 2) ++ l.take ((l.length + 1) / 2)).take
        (((l.drop ((l.length + 1) / 2) ++
          l.take ((l.length + 1) / 2)).length + 1) / 2) = l
  rw [hlen2, hk]
  generalize hA : l.drop (l.length / 2) = A
  generalize hB : l.take (l.length / 2) = B
  have hAlen : A.length = l.length / 2 := by
    rw [← hA, List.length_drop]; omega
  rw [← hAlen, List.drop_left, List.take_left, ← hA, ← hB,
    List.take_append_drop]

/-- Witness for the even-length involution at the concrete input
`[0, 1, 2, 3]`. -/
theorem fft_shift_involution_even_witness :
    fft_shift (fft_shift [(0 : Nat), 1, 2, 3]) = [0, 1, 2, 3] :=
  fft_shift_involution_even [0, 1, 2, 3] (by decide)

/-- The `pixel_map` table of `pixel_nums_to_braille`
(`src/drawing.rs` lines 124–127): Braille dot bits, row-major, left column
then right column. -/
def pixel_map : List (List Nat) :=
  [[0x01, 0x08], [0x02, 0x10], [0x04, 0x20], [0x40, 0x80]]

/-- `pixel_nums_to_braille(p1, p2)` (`src/drawing.rs` lines 123–143),
returning the code point `0x2800 + c` as a natural number (the source
converts it with `char::from_u32(..).unwrap()`; `c ≤ 0xFF`, so the
conversion never fails).  Each Rust loop `for i in p..4` is the fold over
`List.range' p (4 - p)`; for `p ≥ 4` the range is empty (in Rust `p..4` is
then an empty range and the table is never indexed). -/
def pixel_nums_to_braille (p1 p2 : Option Nat) : Nat :=
  let c : Nat :=
    match p1 with
    | some p => (List.range' p (4 - p)).foldl
        (fun c i => c ||| ((pixel_map.getD i []).getD 0 0)) 0
    | none => 0
  let c :=
    match p2 with
    | some p => (List.range' p (4 - p)).foldl
        (fun c i => c ||| ((pixel_map.getD i []).getD 1 0)) c
    | none => c
  0x2800 + c

/-- The four Braille dot bits of the left visual sub-column, rows 0..3. -/
def left_column_bits : List Nat := [0x01, 0x02, 0x04, 0x40]

/-- The four Braille dot bits of the right visual sub-column, rows 0..3. -/
def right_column_bits : List Nat := [0x08, 0x10, 0x20, 0x80]

/-- How many left-sub-column dot bits are set in a glyph bitmask. -/
def leftDotCount (code : Nat) : Nat :=
  (left_column_bits.filter (fun b => code &&& b != 0)).length

/-- C5: `pixel_nums_to_braille` draws filled bars: the fully-present pair
gives the fully-filled glyph `U+28FF`, the absent pair gives the blank
glyph `U+2800`, the glyph is the OR of the two sub-column masks added to
`0x2800`, each sub-column mask is exactly the OR of that column's dot
bits from the given index up to row 3 (so every left-column bit and every
right-column bit from `p` up to row 3 is set), and for a fixed right
argument a larger left index never sets more left-column bits. -/
theorem braille_bar_synthesis :
    pixel_nums_to_braille (some 0) (some 0) = 0x28FF ∧
    pixel_nums_to_braille none none = 0x2800 ∧
    (∀ p1 p2 : Option (Fin 4),
      pixel_nums_to_braille (p1.map Fin.val) (p2.map Fin.val) =
        0x2800 + ((pixel_nums_to_braille (p1.map Fin.val) none - 0x2800) |||
          (pixel_nums_to_braille none (p2.map Fin.val) - 0x2800))) ∧
    (∀ p : Fin 4, pixel_nums_to_braille (some p.val) none =
      0x2800 + (left_column_bits.drop p.val).foldl (fun a b => a ||| b) 0) ∧
    (∀ p : Fin 4, pixel_nums_to_braille none (some p.val) =
      0x2800 + (right_column_bits.drop p.val).foldl (fun a b => a ||| b) 0) ∧
    (∀ p i : Fin 4, p ≤ i →
      (pixel_nums_to_braille (some p.val) none - 0x2800) &&&
        left_column_bits.getD i.val 0 ≠ 0) ∧
    (∀ p i : Fin 4, p ≤ i →
      (pixel_nums_to_braille none (some p.val) - 0x2800) &&&
        right_column_bits.getD i.val 0 ≠ 0) ∧
    (∀ p2 : Option (Fin 4), ∀ a b : Fin 4, a ≤ b →
      leftDotCount (pixel_nums_to_braille (some b.val) (p2.map Fin.val)) ≤
        leftDotCount (pixel_nums_to_braille (some a.val) (p2.map Fin.val))) := by
  decide

/-- Witness for C5: concrete instances of the hypothesis-bearing
conjuncts — right-column bit at row 3 set for index 1, left-column bit at
row 2 set for index 2, and left-fill monotonicity at indices 1 ≤ 2. -/
theorem braille_bar_synthesis_witness :
    ((pixel_nums_to_braille none (some 1) - 0x2800) &&&
      right_column_bits.getD 3 0 ≠ 0) ∧
    ((pixel_nums_to_braille (some 2) none - 0x2800) &&&
      left_column_bits.getD 2 0 ≠ 0) ∧
    leftDotCount (pixel_nums_to_braille (some 2) none) ≤
      leftDotCount (pixel_nums_to_braille (some 1) none) :=
  ⟨braille_bar_synthesis.2.2.2.2.2.2.1 ⟨1, by decide⟩ ⟨3, by decide⟩
      (by decide),
   braille_bar_synthesis.2.2.2.2.2.1 ⟨2, by decide⟩ ⟨2, by decide⟩
      (by decide),
   braille_bar_synthesis.2.2.2.2.2.2.2 none ⟨1, by decide⟩ ⟨2, by decide⟩
      (by decide)⟩

/-- The renderer state from `src/drawing.rs` (`Canvas`): the terminal size,
the two widget heights chosen by `Canvas::new`, and the waterfall history.
The `rustty` terminal/widget cell grids carry no state the claims depend on
beyond their sizes. -/
structure Canvas where
  cols : Nat
  rows : Nat
  spectrum_height : Nat
  waterfall_height : Nat
  history : List (List ℚ)

/-- `Canvas::new()` (`src/drawing.rs` lines 18–37) for a terminal of size
`(cols, rows)`: `spectrum_height = rows / 2` and
`waterfall_height = if rows % 2 != 0 { rows / 2 } else { rows / 2 + 1 }`,
with an empty history. -/
def Canvas.new (cols rows : Nat) : Canvas :=
  { cols := cols
    rows := rows
    spectrum_height := rows / 2
    waterfall_height := if rows % 2 ≠ 0 then rows / 2 else rows / 2 + 1
    history := [] }

/-- The capacity hint `waterfall_height * 2` passed to
`VecDeque::with_capacity` in `Canvas::new` (`src/drawing.rs` line 35).
In Rust this is only an allocation hint: a `VecDeque` grows past it. -/
def Canvas.history_capacity (c : Canvas) : Nat := c.waterfall_height * 2

/-- C8: the claim states the waterfall height is the remaining rows so the
two heights sum exactly to the terminal rows.  In the source the parity
condition is inverted: the sum is `rows − 1` for odd `rows` and `rows + 1`
for even `rows`, hence never equal to `rows` for ANY terminal size; at
`rows = 10` the heights are 5 and 6, summing to 11. -/
theorem widget_heights_never_sum_to_rows (cols rows : Nat) :
    (Canvas.new cols rows).spectrum_height = rows / 2 ∧
    (Canvas.new cols rows).spectrum_height +
      (Canvas.new cols rows).waterfall_height ≠ rows ∧
    (Canvas.new 0 10).spectrum_height = 5 ∧
    (Canvas.new 0 10).waterfall_height = 6 := by
  refine ⟨rfl, ?_, by decide, by decide⟩
  have hw : (Canvas.new cols rows).waterfall_height =
      if rows % 2 ≠ 0 then rows / 2 else rows / 2 + 1 := rfl
  have hs : (Canvas.new cols rows).spectrum_height = rows / 2 := rfl
  rw [hw, hs]
  by_cases h : rows % 2 = 0
  · simp only [h, ne_eq, not_true_eq_false, if_false]
    omega
  · simp only [ne_eq, h, not_false_eq_true, if_true]
    omega

/-- `normalize_spectrum(spec, max_db)` (`src/drawing.rs` lines 109–120):
the inline FFT shift (`split_at((len + 1) / 2)` then `chain`) followed by
the per-element pipeline `norm → log10 → ×10 → / max_db`.  The pipeline is
floating-point and value-irrelevant to every claim below, so it is
abstracted as the parameter `f`; the claims depend only on the shift and
the length (which `f` preserves pointwise). -/
def normalize_spectrum (f : FSample → ℚ) (spec : List FSample) : List ℚ :=
  (spec.drop ((spec.length + 1) / 2) ++
    spec.take ((spec.length + 1) / 2)).map f

/-- `slice::chunks(2)`: contiguous chunks of two, the last chunk possibly
of length one. -/
def chunks2 {α : Type} : List α → List (List α)
  | [] => []
  | [a] => [[a]]
  | a :: b :: rest => [a, b] :: chunks2 rest

/-- The closure `|v| (v[0] + v[1]) / 2.0` of `Canvas::add_spectrum`
(`src/drawing.rs` line 45): both elements are read unconditionally, so a
one-element chunk panics on `v[1]` (modelled as `none`). -/
def avg_chunk (v : List ℚ) : Option ℚ :=
  match v.get? 0, v.get? 1 with
  | some a, some b => some ((a + b) / 2)
  | _, _ => none

/-- The `.map(..).collect()` over the chunk iterator: a panic in the
closure (a one-element chunk) aborts the whole collection. -/
def mapAvgChunks : List (List ℚ) → Option (List ℚ)
  | [] => some []
  | v :: rest =>
    match avg_chunk v, mapAvgChunks rest with
    | some x, some xs => some (x :: xs)
    | _, _ => none

/-- `normalized.chunks(2).map(|v| (v[0] + v[1]) / 2.0).collect()` from
`Canvas::add_spectrum` (`src/drawing.rs` line 45). -/
def chunk_pair_average (l : List ℚ) : Option (List ℚ) :=
  mapAvgChunks (chunks2 l)

/-- `Canvas::add_spectrum` (`src/drawing.rs` lines 41–53), restricted to
its state change: the normalized spectrum is averaged in pairs and pushed
onto the front of the history.  The drawing calls
(`draw_spectrum`, `draw_waterfall`, `draw_into`, `swap_buffers`) only
write terminal cells and do not touch the `Canvas` fields modelled here;
their index accesses are modelled separately below. -/
def Canvas.add_spectrum (f : FSample → ℚ) (c : Canvas) (spec : List FSample) :
    Option Canvas :=
  match chunk_pair_average (normalize_spectrum f spec) with
  | some averaged => some { c with history := averaged :: c.history }
  | none => none

/-- The inline FFT shift of `normalize_spectrum` preserves the length. -/
theorem normalize_spectrum_length (f : FSample → ℚ) (spec : List FSample) :
    (normalize_spectrum f spec).length = spec.length := by
  simp only [normalize_spectrum, List.length_map, List.length_append,
    List.length_drop, List.length_take]
  omega

/-- Pair-averaging succeeds exactly on even-length inputs: the final
one-element chunk of an odd-length input panics on `v[1]`. -/
theorem chunk_pair_average_parity : ∀ l : List ℚ,
    (l.length % 2 = 0 → ∃ t : List ℚ, chunk_pair_average l = some t ∧
      t.length = l.length / 2) ∧
    (l.length % 2 = 1 → chunk_pair_average l = none)
  | [] => ⟨fun _ => ⟨[], rfl, rfl⟩, fun h => by simp at h⟩
  | [a] => ⟨fun h => by simp at h, fun _ => rfl⟩
  | a :: b :: rest => by
    obtain ⟨he, ho⟩ := chunk_pair_average_parity rest
    constructor
    · intro h
      have h2 : rest.length % 2 = 0 := by
        simp only [List.length_cons] at h; omega
      obtain ⟨t, ht, htlen⟩ := he h2
      refine ⟨(a + b) / 2 :: t, ?_, ?_⟩
      · simp only [chunk_pair_average, chunks2, mapAvgChunks, avg_chunk,
          List.get?] at ht ⊢
        rw [ht]
      · simp only [List.length_cons, htlen]; omega
    · intro h
      have h2 : rest.length % 2 = 1 := by
        simp only [List.length_cons] at h; omega
      have ht := ho h2
      simp only [chunk_pair_average, chunks2, mapAvgChunks, avg_chunk,
        List.get?] at ht ⊢
      rw [ht]

/-- C10: `Canvas::add_spectrum`'s pair-averaging reads `v[0]` and `v[1]`
of every chunk unconditionally; for every even-length spectrum the
indexing is in bounds and the averaged trace has half the length, while
for every odd-length spectrum the final one-element chunk reads `v[1]`
out of bounds (a panic, modelled as `none`) — `add_spectrum` is safe
exactly under the even-length precondition. -/
theorem add_spectrum_even_length_safety (f : FSample → ℚ) (c : Canvas)
    (spec : List FSample) :
    (spec.length % 2 = 0 → ∃ c2 : Canvas,
      c.add_spectrum f spec = some c2 ∧
      ∃ t : List ℚ, c2.history = t :: c.history ∧
        t.length = spec.length / 2) ∧
    (spec.length % 2 = 1 → c.add_spectrum f spec = none) := by
  have hlen := normalize_spectrum_length f spec
  obtain ⟨he, ho⟩ := chunk_pair_average_parity (normalize_spectrum f spec)
  constructor
  · intro h
    obtain ⟨t, ht, htlen⟩ := he (by omega)
    refine ⟨{ c with history := t :: c.history }, ?_, t, rfl, by omega⟩
    unfold Canvas.add_spectrum
    rw [ht]
  · intro h
    unfold Canvas.add_spectrum
    rw [ho (by omega)]

/-- Witness for C10: a two-sample spectrum succeeds, a one-sample spectrum
panics, with the value pipeline instantiated to the real-part projection. -/
theorem add_spectrum_even_length_safety_witness :
    (∃ c2 : Canvas, (Canvas.new 2 4).add_spectrum Prod.fst
        [((1 : ℚ), (0 : ℚ)), (2, 0)] = some c2 ∧
      ∃ t : List ℚ, c2.history = t :: (Canvas.new 2 4).history ∧
        t.length = 1) ∧
    (Canvas.new 2 4).add_spectrum Prod.fst [((1 : ℚ), (0 : ℚ))] = none :=
  ⟨(add_spectrum_even_length_safety Prod.fst (Canvas.new 2 4)
      [((1 : ℚ), (0 : ℚ)), (2, 0)]).1 rfl,
   (add_spectrum_even_length_safety Prod.fst (Canvas.new 2 4)
      [((1 : ℚ), (0 : ℚ))]).2 rfl⟩

/-- Folding `Canvas::add_spectrum` over a list of incoming spectra, as the
render loop in `main` does once per received spectrum. -/
def add_spectra (f : FSample → ℚ) : Canvas → List (List FSample) → Option Canvas
  | c, [] => some c
  | c, spec :: rest =>
    match c.add_spectrum f spec with
    | some c2 => add_spectra f c2 rest
    | none => none

/-- C4: the claim states the history never exceeds its capacity
`C = 2 × waterfall rows` and that after `C + 1` insertions the
first-inserted trace is evicted.  In the source the capacity is only the
`VecDeque::with_capacity` allocation hint and `push_front` never evicts:
on a 5-row terminal (waterfall height 2, capacity 4), after 5 insertions
the history holds 5 > 4 traces and the first-inserted averaged trace is
still retrievable at the back. -/
theorem waterfall_history_unbounded (f : FSample → ℚ) :
    (Canvas.new 4 5).waterfall_height = 2 ∧
    (Canvas.new 4 5).history_capacity = 4 ∧
    ∃ c2 : Canvas, add_spectra f (Canvas.new 4 5)
        [[(1, 0), (1, 0)], [(2, 0), (2, 0)], [(3, 0), (3, 0)],
         [(4, 0), (4, 0)], [(5, 0), (5, 0)]] = some c2 ∧
      c2.history.length = 5 ∧
      ∃ t1 : List ℚ,
        chunk_pair_average (normalize_spectrum f [(1, 0), (1, 0)]) = some t1 ∧
        c2.history.getLast? = some t1 := by
  refine ⟨rfl, rfl, _, rfl, rfl, _, rfl, rfl⟩

/-- The subsampling loop of `spectrum_to_bin_heights`
(`src/drawing.rs` lines 158–165): `i` is the enumeration index, `ws` the
prefix of `dest` written so far (the source writes at consecutive
positions `0, 1, 2, …`, keeping `last_idx = ws.length − 1`, initially
`-1isize`), `n` the spectrum length and `destLen` the destination length.
A value is written exactly when `(i * destLen / n) as isize > last_idx`. -/
def subsampleGo (destLen n : Nat) : Nat → List ℚ → List ℚ → List ℚ
  | _, ws, [] => ws
  | i, ws, x :: xs =>
    if ((i * destLen / n : Nat) : Int) > (ws.length : Int) - 1 then
      subsampleGo destLen n (i + 1) (ws ++ [x]) xs
    else
      subsampleGo destLen n (i + 1) ws xs

/-- `spectrum_to_bin_heights(spec, dest)` (`src/drawing.rs` lines
155–169): subsample the magnitudes by selecting single samples (positions
of `dest` never written keep the caller's zero fill, `draw_spectrum`
line 239), then `fft_shift` the destination in place.  A write past
`dest.len()` would panic (`none`); the division `i * dest.len() / spec.len()`
is only evaluated inside the loop, so an empty spectrum performs no
division.  The magnitude map `Complex::norm` is abstracted as `f`. -/
def spectrum_to_bin_heights (f : FSample → ℚ) (spec : List FSample)
    (destLen : Nat) : Option (List ℚ) :=
  if (subsampleGo destLen spec.length 0 [] (spec.map f)).length ≤ destLen then
    some (fft_shift (subsampleGo destLen spec.length 0 [] (spec.map f) ++
      List.replicate
        (destLen - (subsampleGo destLen spec.length 0 [] (spec.map f)).length)
        0))
  else none

/-- Modelled from the spec: the canonical bin-averaging down-sampling
policy of §4.2 — partition the trace into `destLen` contiguous bins of
equal integer size (the final bin possibly partial) and output the average
of each bin's values. -/
def bin_averaging_spec (xs : List ℚ) (destLen : Nat) : List ℚ :=
  let size := (xs.length + destLen - 1) / destLen
  (List.range destLen).map (fun j =>
    let bin := (xs.drop (j * size)).take size
    bin.sum / (bin.length : ℚ))

/-- The loop of `bin_heights` (`src/main.rs` lines 79–99): state is
`(i, height, ws)`; each sample is first added to `height`, then if
`i ≥ samples_per_bin` the accumulated sum divided by `samples_per_bin` is
written and the state reset, else `i` is incremented.  A write past
`destLen` is an out-of-bounds panic (`none`). -/
def bin_heights_go (spb destLen : Nat) :
    Nat → ℚ → List ℚ → List ℚ → Option (List ℚ × ℚ × Nat)
  | i, height, ws, [] => some (ws, height, i)
  | i, height, ws, x :: xs =>
    let height := height + x
    if spb ≤ i then
      if ws.length < destLen then
        bin_heights_go spb destLen 0 0 (ws ++ [height / (spb : ℚ)]) xs
      else none
    else
      bin_heights_go spb destLen (i + 1) height ws xs

/-- `bin_heights(source, dest)` from the historical binary
(`src/main.rs` lines 79–99): averages runs of `samples_per_bin + 1`
samples, dividing by `samples_per_bin`, with a final partial write
`height / i`; unwritten positions keep the caller's zero fill
(`draw_spectrum`, `src/main.rs` line 111).  `samples_per_bin` is
`source.len() / dest.len()`, so `destLen = 0` panics (`none`). -/
def bin_heights (source : List ℚ) (destLen : Nat) : Option (List ℚ) :=
  if destLen = 0 then none
  else
    match bin_heights_go (source.length / destLen) destLen 0 0 [] source with
    | none => none
    | some (ws, height, i) =>
      if i ≠ 0 then
        if ws.length < destLen then
          some (ws ++ [height / (i : ℚ)] ++
            List.replicate (destLen - ws.length - 1) 0)
        else none
      else some (ws ++ List.replicate (destLen - ws.length) 0)

/-- C7 counterexample: on the magnitude trace `[0, 2, 0, 2]` down-sampled
to 2 bins, the library's `spectrum_to_bin_heights` yields `[0, 0]`
(it selects samples 0 and 2, both zero), bin averaging per the spec yields
`[1, 1]`, and the historical `bin_heights` of `src/main.rs` yields
`[1, 2]` (it averages 3 samples dividing by 2, then averages the 1-sample
remainder) — neither code path implements the claimed equal-bin
averaging. -/
theorem downsampling_not_bin_averaging :
    spectrum_to_bin_heights Prod.fst
        [((0 : ℚ), (0 : ℚ)), (2, 0), (0, 0), (2, 0)] 2 = some [0, 0] ∧
    bin_averaging_spec [(0 : ℚ), 2, 0, 2] 2 = [1, 1] ∧
    bin_heights [(0 : ℚ), 2, 0, 2] 2 = some [1, 2] ∧
    ([(0 : ℚ), 0] ≠ [(1 : ℚ), 1]) ∧ ([(1 : ℚ), 2] ≠ [(1 : ℚ), 1]) := by
  refine ⟨?_, ?_, ?_, by norm_num, by norm_num⟩
  · norm_num [spectrum_to_bin_heights, subsampleGo, fft_shift]
  · norm_num [bin_averaging_spec, List.range_succ]
  · norm_num [bin_heights, bin_heights_go]

/-- Every value written by the subsampling loop is one of the loop's input
values or was already in the accumulator. -/
theorem subsampleGo_mem (destLen n : Nat) :
    ∀ (xs : List ℚ) (i : Nat) (ws : List ℚ) (y : ℚ),
      y ∈ subsampleGo destLen n i ws xs → y ∈ ws ∨ y ∈ xs := by
  intro xs
  induction xs with
  | nil =>
    intro i ws y h
    exact Or.inl h
  | cons x xs ih =>
    intro i ws y h
    unfold subsampleGo at h
    by_cases hc : ((i * destLen / n : Nat) : Int) > (ws.length : Int) - 1
    · rw [if_pos hc] at h
      rcases ih (i + 1) (ws ++ [x]) y h with h2 | h2
      · rcases List.mem_append.mp h2 with h3 | h3
        · exact Or.inl h3
        · simp only [List.mem_singleton] at h3
          rw [h3]
          exact Or.inr (List.mem_cons_self x xs)
      · exact Or.inr (List.mem_cons_of_mem x h2)
    · rw [if_neg hc] at h
      rcases ih (i + 1) ws y h with h2 | h2
      · exact Or.inl h2
      · exact Or.inr (List.mem_cons_of_mem x h2)

/-- Membership is preserved by `fft_shift` (it only reorders). -/
theorem fft_shift_mem {α : Type} (l : List α) (y : α)
    (h : y ∈ fft_shift l) : y ∈ l := by
  rcases List.mem_append.mp h with h2 | h2
  · exact List.drop_subset _ l h2
  · exact List.take_subset _ l h2

/-- C7 (amended): the renderer's down-sampling is nearest-sample
selection, not bin averaging: every value of the down-sampled trace is one
of the input magnitudes (a single selected sample) or the caller's zero
fill for never-written bins — it is never a multi-sample average. -/
theorem downsampling_nearest_sample (f : FSample → ℚ) (spec : List FSample)
    (destLen : Nat) (result : List ℚ)
    (h : spectrum_to_bin_heights f spec destLen = some result) :
    ∀ y ∈ result, y ∈ spec.map f ∨ y = 0 := by
  intro y hy
  unfold spectrum_to_bin_heights at h
  by_cases hle :
      (subsampleGo destLen spec.length 0 [] (spec.map f)).length ≤ destLen
  · rw [if_pos hle] at h
    obtain hres := (Option.some.injEq _ _).mp h
    subst hres
    rcases List.mem_append.mp (fft_shift_mem _ y hy) with h2 | h2
    · rcases subsampleGo_mem destLen spec.length (spec.map f) 0 [] y h2 with
        h3 | h3
      · simp at h3
      · exact Or.inl h3
    · exact Or.inr (List.eq_of_mem_replicate h2)
  · rw [if_neg hle] at h
    exact absurd h (by simp)

/-- Witness for the amended C7 at a concrete run: down-sampling the
two-sample spectrum `[(1,0), (2,0)]` to one bin selects the first
magnitude, and every output value is an input magnitude or zero. -/
theorem downsampling_nearest_sample_witness :
    (1 : ℚ) ∈ ([((1 : ℚ), (0 : ℚ)), (2, 0)].map Prod.fst) ∨ (1 : ℚ) = 0 :=
  downsampling_nearest_sample Prod.fst [((1 : ℚ), (0 : ℚ)), (2, 0)] 1 [1]
    (by norm_num [spectrum_to_bin_heights, subsampleGo, fft_shift])
    1 (List.mem_singleton.mpr rfl)

/-- The sequence of `(column, row)` cell coordinates passed to
`canvas.get_mut` by `draw_pixel_pair` (`src/drawing.rs` lines 177–229),
after the clamp and top-down inversion: the fully-filled cells from
`max(c1, c2)` to the bottom, the left-fill run up to `c2`, the right-fill
run up to `c1`, and the boundary cell(s) (one when `c1 = c2`, otherwise
the two cells `c1` and `c2`, written in that order in both remaining
branches of the source). -/
def draw_pixel_pair_body (rows col_idx p1 p2 : Nat) : List (Nat × Nat) :=
  let max_pixel_height := 4 * rows
  let p1 := if max_pixel_height ≤ p1 then max_pixel_height - 1 else p1
  let p2 := if max_pixel_height ≤ p2 then max_pixel_height - 1 else p2
  let p1 := max_pixel_height - p1 - 1
  let p2 := max_pixel_height - p2 - 1
  let c1 := p1 / 4
  let c2 := p2 / 4
  (List.range' (max c1 c2) (rows - max c1 c2)).map (fun r => (col_idx, r)) ++
    (List.range' (min c1 c2) (c2 - min c1 c2)).map (fun r => (col_idx, r)) ++
    (List.range' (min c1 c2) (c1 - min c1 c2)).map (fun r => (col_idx, r)) ++
    (if c1 = c2 then [(col_idx, c1)] else [(col_idx, c1), (col_idx, c2)])

/-- `draw_pixel_pair`'s cell accesses as an `Option`: when the widget has
zero rows, `max_pixel_height = 0` and the clamp `max_pixel_height - 1`
underflows `usize` (a panic, modelled as `none`) before any cell is
touched; otherwise the access list of `draw_pixel_pair_body`. -/
def draw_pixel_pair_accesses (rows col_idx p1 p2 : Nat) :
    Option (List (Nat × Nat)) :=
  if 4 * rows = 0 then none
  else some (draw_pixel_pair_body rows col_idx p1 p2)

/-- The clamped, inverted pixel height always lands in a cell row strictly
below `rows`. -/
theorem draw_cell_lt_rows (rows p : Nat) (hrows : 0 < rows) :
    (4 * rows - (if 4 * rows ≤ p then 4 * rows - 1 else p) - 1) / 4 < rows := by
  by_cases h : 4 * rows ≤ p
  · rw [if_pos h]; omega
  · rw [if_neg h]; omega

/-- Membership in a column-constant strip of rows. -/
theorem mem_colmap_range' {col a n : Nat} {pr : Nat × Nat}
    (h : pr ∈ (List.range' a n).map (fun r => (col, r))) :
    pr.1 = col ∧ a ≤ pr.2 ∧ pr.2 < a + n := by
  obtain ⟨r, hr, heq⟩ := List.mem_map.mp h
  obtain ⟨h1, h2⟩ := List.mem_range'_1.mp hr
  rw [← heq]
  exact ⟨rfl, h1, h2⟩

/-- Every cell access of `draw_pixel_pair_body` is in the requested column
and strictly inside the widget rows, provided the widget has at least one
row. -/
theorem draw_pixel_pair_in_bounds_aux (rows col_idx p1 p2 : Nat)
    (hrows : 0 < rows) :
    ∀ pr ∈ draw_pixel_pair_body rows col_idx p1 p2,
      pr.1 = col_idx ∧ pr.2 < rows := by
  intro pr hpr
  have hc1 := draw_cell_lt_rows rows p1 hrows
  have hc2 := draw_cell_lt_rows rows p2 hrows
  simp only [draw_pixel_pair_body] at hpr
  generalize hg1 : (4 * rows -
    (if 4 * rows ≤ p1 then 4 * rows - 1 else p1) - 1) / 4 = c1 at hpr hc1
  generalize hg2 : (4 * rows -
    (if 4 * rows ≤ p2 then 4 * rows - 1 else p2) - 1) / 4 = c2 at hpr hc2
  have hmax : max c1 c2 < rows := max_lt hc1 hc2
  have hmin1 : min c1 c2 ≤ c1 := min_le_left _ _
  have hmin2 : min c1 c2 ≤ c2 := min_le_right _ _
  rcases List.mem_append.mp hpr with h | h
  · rcases List.mem_append.mp h with h | h
    · rcases List.mem_append.mp h with h | h
      · obtain ⟨hcol, hge, hlt⟩ := mem_colmap_range' h
        exact ⟨hcol, by omega⟩
      · obtain ⟨hcol, hge, hlt⟩ := mem_colmap_range' h
        exact ⟨hcol, by omega⟩
    · obtain ⟨hcol, hge, hlt⟩ := mem_colmap_range' h
      exact ⟨hcol, by omega⟩
  · by_cases hcc : c1 = c2
    · rw [if_pos hcc] at h
      simp only [List.mem_singleton] at h
      rw [h]
      exact ⟨rfl, by omega⟩
    · rw [if_neg hcc] at h
      rcases List.mem_cons.mp h with h2 | h2
      · rw [h2]
        exact ⟨rfl, by omega⟩
      · simp only [List.mem_singleton] at h2
        rw [h2]
        exact ⟨rfl, by omega⟩

/-- `itertools::zip_longest` (`EitherOrBoth`) as used by `draw_waterfall`:
pairs up to the longer of the two lists, padding the shorter side with
`none`. -/
def zip_longest {α β : Type} : List α → List β → List (Option α × Option β)
  | [], [] => []
  | a :: as, [] => (some a, none) :: zip_longest as []
  | [], b :: bs => (none, some b) :: zip_longest [] bs
  | a :: as, b :: bs => (some a, some b) :: zip_longest as bs

/-- The `(column, row)` cell coordinates passed to `canvas.get_mut` by
`draw_waterfall` (`src/drawing.rs` lines 60–83): the display rows are
zipped with the history taken in chunks of two (newest first); a
two-trace chunk walks the columns zipped with `zip_longest` of the two
traces, a one-trace chunk walks the columns zipped with that trace. -/
def draw_waterfall_accesses (cols rows : Nat) (spectra : List (List ℚ)) :
    List (Nat × Nat) :=
  ((List.range rows).zip (chunks2 spectra)).flatMap (fun p =>
    match p.2 with
    | [upper, lower] =>
      ((List.range cols).zip (zip_longest upper lower)).map
        (fun q => (q.1, p.1))
    | [upper] =>
      ((List.range cols).zip upper).map (fun q => (q.1, p.1))
    | _ => [])

/-- Every cell access of `draw_waterfall` is inside the widget, for every
widget size (zero rows included) and every history, however ragged. -/
theorem draw_waterfall_in_bounds_aux (cols rows : Nat)
    (spectra : List (List ℚ)) :
    ∀ pr ∈ draw_waterfall_accesses cols rows spectra,
      pr.1 < cols ∧ pr.2 < rows := by
  intro pr hpr
  obtain ⟨p, hp, hpr2⟩ := List.mem_flatMap.mp hpr
  obtain ⟨row, chunk⟩ := p
  have hrow : row < rows := List.mem_range.mp (List.of_mem_zip hp).1
  cases chunk with
  | nil => simp at hpr2
  | cons u rest =>
    cases rest with
    | nil =>
      obtain ⟨⟨qc, qv⟩, hq, heq⟩ := List.mem_map.mp hpr2
      have hcol : qc < cols := List.mem_range.mp (List.of_mem_zip hq).1
      rw [← heq]
      exact ⟨hcol, hrow⟩
    | cons l rest2 =>
      cases rest2 with
      | nil =>
        obtain ⟨⟨qc, qv⟩, hq, heq⟩ := List.mem_map.mp hpr2
        have hcol : qc < cols := List.mem_range.mp (List.of_mem_zip hq).1
        rw [← heq]
        exact ⟨hcol, hrow⟩
      | cons w rest3 => simp at hpr2

/-- C9 counterexample: with a zero-row spectrum widget the clamp
`max_pixel_height - 1` in `draw_pixel_pair` underflows (a panic), for any
pixel heights — so the routine is not safe "including the edge case of a
widget with zero rows" as the claim states. -/
theorem draw_pixel_pair_zero_rows_underflow :
    draw_pixel_pair_accesses 0 0 0 0 = none ∧
    draw_pixel_pair_accesses 0 5 7 11 = none := by
  decide

/-- C9 (amended): provided the spectrum widget has at least one row, every
cell access of `draw_pixel_pair` (after clamp and inversion) is in the
requested column and strictly inside the widget rows, for arbitrary pixel
heights; and every cell access of `draw_waterfall` is inside the widget
for every size (zero rows included) and every history. -/
theorem draw_accesses_in_bounds :
    (∀ rows col_idx p1 p2 : Nat, 0 < rows →
      ∃ acc, draw_pixel_pair_accesses rows col_idx p1 p2 = some acc ∧
        ∀ pr ∈ acc, pr.1 = col_idx ∧ pr.2 < rows) ∧
    (∀ (cols rows : Nat) (spectra : List (List ℚ)),
      ∀ pr ∈ draw_waterfall_accesses cols rows spectra,
        pr.1 < cols ∧ pr.2 < rows) := by
  constructor
  · intro rows col_idx p1 p2 hrows
    refine ⟨draw_pixel_pair_body rows col_idx p1 p2, ?_,
      draw_pixel_pair_in_bounds_aux rows col_idx p1 p2 hrows⟩
    unfold draw_pixel_pair_accesses
    rw [if_neg (by omega)]
  · exact draw_waterfall_in_bounds_aux

/-- Witness for the amended C9: a one-row widget with overshooting pixel
heights, and a one-row one-trace waterfall access. -/
theorem draw_accesses_in_bounds_witness :
    (∃ acc, draw_pixel_pair_accesses 1 0 9 2 = some acc ∧
      ∀ pr ∈ acc, pr.1 = 0 ∧ pr.2 < 1) ∧
    ((0, 0) : Nat × Nat).1 < 1 ∧ ((0, 0) : Nat × Nat).2 < 1 :=
  ⟨draw_accesses_in_bounds.1 1 0 9 2 (by decide),
   draw_accesses_in_bounds.2 1 1 [[5]] (0, 0) (by decide)⟩

